import Mathlib

/-!
Verification development for the rustybf toolchain.

The repository contains two generations of the intermediate representation:

* src/parser.rs and src/interpreter.rs use the current IR, whose pointer
  movement is a single Move variant with a signed offset
  (type Instruction below);

* src/optimizer/passes.rs still pattern-matches the earlier IR, in which
  pointer movement is split into Left and Right variants carrying an
  unsigned amount, and Add carries a plain byte (its own unit tests parse
  programs into that representation).  That IR is embedded below as
  LRInstruction, reconstructed from the pattern matches and the unit tests
  of src/optimizer/passes.rs.

Machine integers are modeled as Nat and Int with explicit reductions
modulo 2 to the 8 (wrap8) where the source uses wrapping byte arithmetic,
and modulo 2 to the 64 (wrap64) where the source uses wrapping_add on a
word-sized unsigned amount.  Signed isize offsets are modeled as Int;
their machine overflow is not reachable for the quantities involved.
-/

set_option maxHeartbeats 1000000

/-- Inclusive byte-offset range into the source (src/parser.rs, Position).
The source calls the second field end, which is a reserved word here. -/
structure Position where
  start : Nat
  stop : Nat
deriving DecidableEq, Repr

/-- Position.merge from src/parser.rs: componentwise min of starts and max of ends. -/
def Position.merge (a b : Position) : Position :=
  ⟨min a.start b.start, max a.stop b.stop⟩

/-- Wrapping byte arithmetic: reduce modulo 256. -/
def wrap8 (n : Nat) : Nat := n % 256

/-- Wrapping word arithmetic (usize wrapping_add): reduce modulo 2 to the 64. -/
def wrap64 (n : Nat) : Nat := n % 18446744073709551616

/-- The earlier-generation IR that src/optimizer/passes.rs operates on:
pointer movement is Left / Right with an unsigned amount, Add carries a
plain byte amount.  Clear and Mul are the optimizer-added variants. -/
inductive LRInstruction where
  | add (amount : Nat) (position : Position)
  | left (amount : Nat) (position : Position)
  | right (amount : Nat) (position : Position)
  | input (position : Position)
  | output (position : Position)
  | loop (body : List LRInstruction) (position : Position)
  | clear (position : Position)
  | mul (offset : Int) (amount : Nat) (position : Position)
deriving Repr

mutual

/-- Loop-nesting weight of one instruction (used only as a termination
measure for the recursive passes; ignores numeric payloads). -/
def instrWeight : LRInstruction → Nat
  | .loop b _ => 1 + listWeight b
  | _ => 1

/-- Loop-nesting weight of an instruction sequence. -/
def listWeight : List LRInstruction → Nat
  | [] => 0
  | x :: xs => instrWeight x + listWeight xs + 1

end

theorem instrWeight_pos (i : LRInstruction) : 0 < instrWeight i := by
  cases i <;> simp [instrWeight]

theorem listWeight_of_mem : ∀ {l : List LRInstruction} {i : LRInstruction}, i ∈ l →
    instrWeight i < listWeight l := by
  intro l
  induction l with
  | nil => intro i h; cases h
  | cons x xs ih =>
    intro i h
    rcases List.mem_cons.mp h with h1 | h1
    · subst h1; simp [listWeight]; omega
    · have := ih h1; simp [listWeight]; omega

theorem listWeight_body_lt {b : List LRInstruction} {p : Position}
    {l : List LRInstruction} (h : LRInstruction.loop b p ∈ l) :
    listWeight b < listWeight l := by
  have := listWeight_of_mem h
  simp [instrWeight] at this
  omega

/-- The merging cases (the Ok arms) of the closure passed to coalesce in
CollapseIncrements::run (src/optimizer/passes.rs lines 17-66): consecutive
Add / Left / Right merge with wrapping addition, alternating Left and
Right merge into the difference in the direction of the larger amount,
and consecutive Clear collapse.  The Loop arm of the closure is not a
merge (it returns Err) and is handled in collapseGo below. -/
def collapseMerge : LRInstruction → LRInstruction → Option LRInstruction
  | .add x pa, .add y pb => some (.add (wrap8 (x + y)) (pa.merge pb))
  | .left x pa, .left y pb => some (.left (wrap64 (x + y)) (pa.merge pb))
  | .right x pa, .right y pb => some (.right (wrap64 (x + y)) (pa.merge pb))
  | .left l pa, .right r pb =>
      some (if r ≤ l then .left (l - r) (pa.merge pb) else .right (r - l) (pa.merge pb))
  | .right r pa, .left l pb =>
      some (if r ≤ l then .left (l - r) (pa.merge pb) else .right (r - l) (pa.merge pb))
  | .clear pa, .clear pb => some (.clear (pa.merge pb))
  | _, _ => none

theorem collapseMerge_weight {a b c : LRInstruction}
    (h : collapseMerge a b = some c) : instrWeight c = 1 := by
  cases a <;> cases b <;> simp [collapseMerge] at h
  all_goals (subst h; first | rfl | (split <;> rfl))

mutual

/-- CollapseIncrements::run (src/optimizer/passes.rs lines 15-81): the
itertools coalesce adaptor specialised to the closure of the source.
collapseGo holds the current accumulated element (the closure argument a)
and the remaining input; a successful merge continues with the merged
element, otherwise the accumulated element is emitted (recursively
optimising its body when it is a loop, exactly as the Err arm of the
source closure does) and the next element becomes the accumulator.
A sequence whose last element is a loop therefore emits that loop
without visiting its body: coalesce never calls the closure with the
final accumulated element on the left. -/
def collapseRun : List LRInstruction → List LRInstruction
  | [] => []
  | x :: xs => collapseGo x xs
  termination_by l => listWeight l
  decreasing_by simp only [listWeight]; omega

/-- The element-by-element loop of the coalesce adaptor used by
CollapseIncrements::run. -/
def collapseGo : LRInstruction → List LRInstruction → List LRInstruction
  | last, [] => [last]
  | last, x :: xs =>
    match hm : collapseMerge last x with
    | some c => collapseGo c xs
    | none =>
      match last with
      | .loop b p => .loop (collapseRun b) p :: collapseGo x xs
      | _ => last :: collapseGo x xs
  termination_by last xs => instrWeight last + listWeight xs
  decreasing_by
    all_goals first
      | (have h1 := collapseMerge_weight hm
         have h2 := instrWeight_pos last
         simp only [listWeight]; omega)
      | (simp only [listWeight, instrWeight]; omega)
      | (have h2 := instrWeight_pos last
         simp only [listWeight]; omega)

end

/-- The null-increment test of the filter stage of DeadCode::run
(src/optimizer/passes.rs lines 97-102): Add, Right and Left with a zero
amount are dropped. -/
def isNullIncr : LRInstruction → Bool
  | .add a _ => a = 0
  | .right a _ => a = 0
  | .left a _ => a = 0
  | _ => false

/-- The Ok arms of the coalesce closure in DeadCode::run (lines 108-115):
a Loop followed by another Loop or by a Clear keeps only the first Loop. -/
def dcStep : LRInstruction → LRInstruction → Option LRInstruction
  | a@(.loop _ _), .loop _ _ => some a
  | a@(.loop _ _), .clear _ => some a
  | _, _ => none

/-- The element-by-element loop of the coalesce adaptor used by
DeadCode::run, specialised to dcStep. -/
def dcCoalesceGo : LRInstruction → List LRInstruction → List LRInstruction
  | last, [] => [last]
  | last, x :: xs =>
    match dcStep last x with
    | some c => dcCoalesceGo c xs
    | none => last :: dcCoalesceGo x xs

/-- The coalesce stage of DeadCode::run. -/
def dcCoalesce : List LRInstruction → List LRInstruction
  | [] => []
  | x :: xs => dcCoalesceGo x xs

/-- The loop test of the skip_while stage of DeadCode::run (lines
119-122): only the Loop constructor counts, not Clear or Mul. -/
def isLoopCtor : LRInstruction → Bool
  | .loop _ _ => true
  | _ => false

theorem dcStep_some {a b c : LRInstruction} (h : dcStep a b = some c) : c = a := by
  cases a <;> cases b <;> simp [dcStep] at h <;> exact h.symm

theorem mem_dcCoalesceGo {x : LRInstruction} :
    ∀ {xs : List LRInstruction} {last : LRInstruction},
      x ∈ dcCoalesceGo last xs → x = last ∨ x ∈ xs := by
  intro xs
  induction xs with
  | nil => intro last h; simp [dcCoalesceGo] at h; exact Or.inl h
  | cons y ys ih =>
    intro last h
    cases hs : dcStep last y with
    | some c =>
      simp only [dcCoalesceGo, hs] at h
      rcases ih h with h1 | h1
      · left; rw [h1]; exact dcStep_some hs
      · right; exact List.mem_cons_of_mem _ h1
    | none =>
      simp only [dcCoalesceGo, hs] at h
      rcases List.mem_cons.mp h with h1 | h1
      · exact Or.inl h1
      · rcases ih h1 with h2 | h2
        · right; exact List.mem_cons.mpr (Or.inl h2)
        · right; exact List.mem_cons_of_mem _ h2

theorem mem_dcCoalesce {x : LRInstruction} {l : List LRInstruction}
    (h : x ∈ dcCoalesce l) : x ∈ l := by
  cases l with
  | nil => simp [dcCoalesce] at h
  | cons y ys =>
    rcases @mem_dcCoalesceGo x ys y h with h1 | h1
    · rw [h1]; exact List.mem_cons_self _ _
    · exact List.mem_cons_of_mem _ h1

theorem mem_of_mem_dropWhile {α : Type _} {p : α → Bool} {x : α} :
    ∀ {l : List α}, x ∈ l.dropWhile p → x ∈ l := by
  intro l
  induction l with
  | nil => intro h; simp [List.dropWhile] at h
  | cons y ys ih =>
    intro h
    by_cases hp : p y
    · simp only [List.dropWhile, hp] at h
      exact List.mem_cons_of_mem _ (ih h)
    · have hp2 : p y = false := by simpa using hp
      simp only [List.dropWhile, hp2] at h
      exact h

/-- DeadCode::run (src/optimizer/passes.rs lines 93-136): filter out null
increments, coalesce consecutive loops with dcStep, skip leading Loop
instructions, then recurse into the bodies of the surviving loops with
the whole pass (the source recursion reapplies DeadCode.run, including
its skip_while stage, inside loop bodies). -/
def deadCodeRun (l : List LRInstruction) : List LRInstruction :=
  (((dcCoalesce (l.filter (fun i => !isNullIncr i))).dropWhile isLoopCtor).attach).map
    (fun x =>
      match x with
      | ⟨.loop b p, hmem⟩ => .loop (deadCodeRun b) p
      | ⟨i, _⟩ => i)
  termination_by listWeight l
  decreasing_by
    exact listWeight_body_lt
      (List.mem_of_mem_filter (mem_dcCoalesce (mem_of_mem_dropWhile hmem)))

/-- The map update res.entry(offset).or_default followed by wrapping_add
in recognize_mul_loop; the HashMap is modeled as an insertion-ordered
association list (the iteration order of the source HashMap is
unspecified; the claims below do not depend on it). -/
def updateEntry : List (Int × Nat) → Int → Nat → List (Int × Nat)
  | [], k, a => [(k, wrap8 a)]
  | (k1, v) :: rest, k, a =>
    if k1 = k then (k1, wrap8 (v + a)) :: rest else (k1, v) :: updateEntry rest k a

/-- Association-list lookup for the recognized multiplication map. -/
def lookupA : List (Int × Nat) → Int → Option Nat
  | [], _ => none
  | (k1, v) :: rest, k => if k1 = k then some v else lookupA rest k

/-- The validation loop of recognize_mul_loop over instructions[1..]
(src/optimizer/passes.rs lines 246-277): Left and Right adjust the
running offset, Add at a nonzero offset accumulates into the map with
wrapping addition, Add at offset zero rejects (it would change the
iteration counter), and any other instruction rejects.  Returns the
final offset together with the accumulated map. -/
def mulLoopGo : List LRInstruction → Int → List (Int × Nat) → Option (Int × List (Int × Nat))
  | [], off, m => some (off, m)
  | .left a _ :: rest, off, m => mulLoopGo rest (off - (a : Int)) m
  | .right a _ :: rest, off, m => mulLoopGo rest (off + (a : Int)) m
  | .add a _ :: rest, off, m =>
      if off = 0 then none else mulLoopGo rest off (updateEntry m off a)
  | _ :: _, _, _ => none

/-- recognize_mul_loop (src/optimizer/passes.rs lines 234-288): the body
must be nonempty, its first instruction must be Add 255 (a single minus
sign), the remaining instructions must pass the validation loop, and the
net offset at the end must be zero. -/
def recognize_mul_loop (instructions : List LRInstruction) : Option (List (Int × Nat)) :=
  match instructions with
  | [] => none
  | first :: rest =>
    match first with
    | .add amount _ =>
      if amount = 255 then
        match mulLoopGo rest 0 [] with
        | none => none
        | some (off, res) => if off ≠ 0 then none else some res
      else none
    | _ => none

/-- The per-instruction flat_map stage of MulLoops::run
(src/optimizer/passes.rs lines 196-212): a loop recognized as a
multiplication becomes one Mul per map entry followed by a single Clear,
all carrying the position of the loop; every other instruction is kept
unchanged. -/
def mulFlatStep : LRInstruction → List LRInstruction
  | .loop body p =>
    match recognize_mul_loop body with
    | some ms => (ms.map (fun e => LRInstruction.mul e.1 e.2 p)) ++ [.clear p]
    | none => [.loop body p]
  | i => [i]

theorem loop_mem_mulFlat {b : List LRInstruction} {p : Position} {l : List LRInstruction}
    (h : LRInstruction.loop b p ∈ (l.map mulFlatStep).join) :
    LRInstruction.loop b p ∈ l := by
  rcases List.mem_join.mp h with ⟨s, hs, hmem⟩
  rcases List.mem_map.mp hs with ⟨i, hi, rfl⟩
  cases i with
  | loop body q =>
    cases hr : recognize_mul_loop body with
    | some ms =>
      simp [mulFlatStep, hr] at hmem
    | none =>
      simp only [mulFlatStep, hr, List.mem_singleton] at hmem
      rw [hmem]
      exact hi
  | add a q => simp [mulFlatStep] at hmem
  | left a q => simp [mulFlatStep] at hmem
  | right a q => simp [mulFlatStep] at hmem
  | input q => simp [mulFlatStep] at hmem
  | output q => simp [mulFlatStep] at hmem
  | clear q => simp [mulFlatStep] at hmem
  | mul o a q => simp [mulFlatStep] at hmem

/-- MulLoops::run (src/optimizer/passes.rs lines 191-227): flat_map every
instruction through mulFlatStep, then recurse with the whole pass into
the bodies of the loops that survive (exactly the loops not recognized,
since mulFlatStep emits no Loop otherwise). -/
def mulLoopsRun (l : List LRInstruction) : List LRInstruction :=
  ((l.map mulFlatStep).join.attach).map
    (fun x =>
      match x with
      | ⟨.loop b p, hmem⟩ => .loop (mulLoopsRun b) p
      | ⟨i, _⟩ => i)
  termination_by listWeight l
  decreasing_by
    exact listWeight_body_lt (loop_mem_mulFlat hmem)

theorem attach_map_eq {α β : Type _} (l : List α) (f : {x // x ∈ l} → β) (g : α → β)
    (h : ∀ x (hx : x ∈ l), f ⟨x, hx⟩ = g x) : l.attach.map f = l.map g := by
  have h2 : l.attach.map f = l.attach.map (fun i => g i.val) := by
    apply List.map_congr_left
    intro x hx
    rcases x with ⟨v, hv⟩
    exact h v hv
  rw [h2, List.attach_map_val]

/-- The recursion stage of DeadCode::run on one surviving instruction
(lines 125-133): recurse with the whole pass into loop bodies. -/
def dcRecurse (i : LRInstruction) : LRInstruction :=
  match i with
  | .loop b p => .loop (deadCodeRun b) p
  | i => i

/-- DeadCode::run as the plain pipeline filter, coalesce, skip leading
loops, recurse into surviving loop bodies. -/
theorem deadCodeRun_eq (l : List LRInstruction) :
    deadCodeRun l =
      ((dcCoalesce (l.filter (fun i => !isNullIncr i))).dropWhile isLoopCtor).map dcRecurse := by
  unfold deadCodeRun
  apply attach_map_eq
  intro x hx
  cases x <;> rfl

/-- The recursion stage of MulLoops::run on one surviving instruction
(lines 215-223). -/
def mulRecurse (i : LRInstruction) : LRInstruction :=
  match i with
  | .loop b p => .loop (mulLoopsRun b) p
  | i => i

/-- MulLoops::run as the plain pipeline flat_map through mulFlatStep,
then recursion into surviving loop bodies. -/
theorem mulLoopsRun_eq (l : List LRInstruction) :
    mulLoopsRun l = ((l.map mulFlatStep).join).map mulRecurse := by
  unfold mulLoopsRun
  apply attach_map_eq
  intro x hx
  cases x <;> rfl

/-- The current-generation IR defined in src/parser.rs: Move replaces the
older Left and Right, Add carries a wrapping byte (modeled as a Nat
reduced modulo 256 when written). -/
inductive Instruction where
  | add (amount : Nat) (position : Position)
  | move (offset : Int) (position : Position)
  | input (position : Position)
  | output (position : Position)
  | loop (body : List Instruction) (position : Position)
  | clear (position : Position)
  | mul (offset : Int) (amount : Nat) (position : Position)
deriving Repr

/-- The ParseError payload of BrainfuckError (src/error.rs): a message
and the position of the offending byte or bracket. -/
structure ParseErr where
  message : String
  position : Position
deriving DecidableEq, Repr

/-- The loop of parse (src/parser.rs lines 155-202) over the remaining
bytes: the current byte index, the instruction sequence under
construction, and the stack of suspended (parent sequence, open-bracket
offset) pairs, with the most recently pushed pair first (Vec push and
pop act on the back of the vector, modeled here as the list head).
On end of input with a nonempty stack, the reported position is the
offset stored in the pair returned by stack.pop, i.e. the innermost
still-open bracket. -/
def parseGo : List Nat → Nat → List Instruction →
    List (List Instruction × Nat) → Except ParseErr (List Instruction)
  | [], _, instrs, [] => .ok instrs
  | [], _, _, (_, index) :: _ =>
      .error ⟨"This [ has no matching closing ].", ⟨index, index⟩⟩
  | b :: bs, index, instrs, stack =>
    if b = 62 then parseGo bs (index + 1) (instrs ++ [.move 1 ⟨index, index⟩]) stack
    else if b = 60 then parseGo bs (index + 1) (instrs ++ [.move (-1) ⟨index, index⟩]) stack
    else if b = 43 then parseGo bs (index + 1) (instrs ++ [.add 1 ⟨index, index⟩]) stack
    else if b = 45 then parseGo bs (index + 1) (instrs ++ [.add 255 ⟨index, index⟩]) stack
    else if b = 46 then parseGo bs (index + 1) (instrs ++ [.output ⟨index, index⟩]) stack
    else if b = 44 then parseGo bs (index + 1) (instrs ++ [.input ⟨index, index⟩]) stack
    else if b = 91 then parseGo bs (index + 1) [] ((instrs, index) :: stack)
    else if b = 93 then
      match stack with
      | (parent, pidx) :: stack1 =>
          parseGo bs (index + 1) (parent ++ [.loop instrs ⟨pidx, index⟩]) stack1
      | [] => .error ⟨"This ] has no matching opening [.", ⟨index, index⟩⟩
    else parseGo bs (index + 1) instrs stack

/-- parse (src/parser.rs): run the byte stream through parseGo starting
from index 0 with an empty sequence and an empty stack.  The byte
stream is modeled as a pure list, so the IoError path of the source
(a read failure of the underlying stream) does not arise. -/
def parse (bytes : List Nat) : Except ParseErr (List Instruction) :=
  parseGo bytes 0 [] []

/-- Reference scanner for bracket balance, written from the claim text:
d is the number of currently open brackets. -/
def balancedAux : List Nat → Nat → Bool
  | [], d => d = 0
  | b :: bs, d =>
    if b = 91 then balancedAux bs (d + 1)
    else if b = 93 then
      match d with
      | 0 => false
      | d1 + 1 => balancedAux bs d1
    else balancedAux bs d

/-- A byte stream has balanced brackets when the scan never closes more
brackets than are open and ends with none open. -/
def balanced (bytes : List Nat) : Bool := balancedAux bytes 0

/-- Reference scanner for the position reported on a bracket error,
maintaining only the stack of open-bracket offsets (most recent first):
a close with an empty stack reports its own offset; end of input with a
nonempty stack reports the most recently opened (innermost) offset. -/
def errPosAux : List Nat → Nat → List Nat → Option Nat
  | [], _, [] => none
  | [], _, p :: _ => some p
  | b :: bs, i, st =>
    if b = 91 then errPosAux bs (i + 1) (i :: st)
    else if b = 93 then
      match st with
      | [] => some i
      | _ :: st1 => errPosAux bs (i + 1) st1
    else errPosAux bs (i + 1) st

/-- The error position the parser reports on the given byte stream, if any. -/
def errPos (bytes : List Nat) : Option Nat := errPosAux bytes 0 []

/-- The error variants of BrainfuckError reachable from the interpreter
run loop (src/error.rs): read failures on the input stream, and the two
tape-bounds errors. -/
inductive BFErr where
  | ioError
  | tapeUnderflow
  | tapeOverflow
deriving DecidableEq, Repr

/-- Interpreter state (src/interpreter.rs): the byte tape (cells modeled
as Nat reduced modulo 256 when written), the data pointer, and the
optional input and output streams, modeled as byte lists. -/
structure InterpState where
  tape : List Nat
  tape_position : Nat
  inp : Option (List Nat)
  out : Option (List Nat)
deriving DecidableEq, Repr

/-- The state built by InterpreterBuilder::build (src/interpreter.rs
lines 61-68) with no streams attached: a zeroed tape of the configured
size and the data pointer at zero. -/
def buildState (tape_size : Nat) : InterpState :=
  ⟨List.replicate tape_size 0, 0, none, none⟩

/-- The current cell value; the source indexes the tape directly, which
is in bounds under the interpreter invariant. -/
def tapeAt (s : InterpState) : Nat := s.tape.getD s.tape_position 0

/-- Interpreter::compute_offset (src/interpreter.rs lines 191-201): add
the signed offset to the data pointer; a negative target is a tape
underflow and a target at or beyond the tape length is a tape overflow. -/
def compute_offset (s : InterpState) (offset : Int) : Except BFErr Nat :=
  if (s.tape_position : Int) + offset < 0 then .error .tapeUnderflow
  else if (s.tape.length : Int) ≤ (s.tape_position : Int) + offset then .error .tapeOverflow
  else .ok ((s.tape_position : Int) + offset).toNat

/-- Interpreter::run (src/interpreter.rs lines 130-189), with an explicit
fuel bound on loop iterations (none = fuel exhausted, which the source,
running unboundedly, never reports).  The source mutates self in place
and returns Result; this embedding threads the state and pairs an error
with the state at the moment the error is returned, which is what the
mutated self holds when the Err propagates out. -/
def run : Nat → List Instruction → InterpState →
    Option (Except (BFErr × InterpState) InterpState)
  | _, [], s => some (.ok s)
  | fuel, i :: rest, s =>
    match i with
    | .move off _ =>
      match compute_offset s off with
      | .error e => some (.error (e, s))
      | .ok t => run fuel rest { s with tape_position := t }
    | .add a _ =>
      run fuel rest { s with tape := s.tape.set s.tape_position (wrap8 (tapeAt s + a)) }
    | .input _ =>
      match s.inp with
      | some [] => some (.error (.ioError, s))
      | some (b :: bs) =>
          run fuel rest { s with tape := s.tape.set s.tape_position b, inp := some bs }
      | none => run fuel rest { s with tape := s.tape.set s.tape_position 0 }
    | .output _ =>
      match s.out with
      | some o => run fuel rest { s with out := some (o ++ [tapeAt s]) }
      | none => run fuel rest s
    | .loop body p =>
      if tapeAt s = 0 then run fuel rest s
      else
        match fuel with
        | 0 => none
        | fuel1 + 1 =>
          match run fuel1 body s with
          | none => none
          | some (.error es) => some (.error es)
          | some (.ok s1) => run fuel1 (.loop body p :: rest) s1
    | .clear _ =>
      run fuel rest { s with tape := s.tape.set s.tape_position 0 }
    | .mul off a _ =>
      if tapeAt s = 0 then run fuel rest s
      else
        match compute_offset s off with
        | .error e => some (.error (e, s))
        | .ok t =>
            run fuel rest { s with tape := s.tape.set t (wrap8 (s.tape.getD t 0 + wrap8 (tapeAt s * a))) }
  termination_by fuel l _ => (fuel, sizeOf l)

theorem lookupA_updateEntry_ne : ∀ (m : List (Int × Nat)) (k j : Int) (a : Nat), j ≠ k →
    lookupA (updateEntry m k a) j = lookupA m j := by
  intro m
  induction m with
  | nil =>
    intro k j a h
    simp [updateEntry, lookupA]
    intro hq
    exact absurd hq.symm h
  | cons e rest ih =>
    intro k j a h
    rcases e with ⟨k1, v⟩
    by_cases h1 : k1 = k
    · subst h1
      have h2 : ¬ k1 = j := fun hh => h (hh.symm.trans rfl)
      simp [updateEntry, lookupA, h2]
    · by_cases h2 : k1 = j
      · subst h2; simp [updateEntry, lookupA, h1]
      · simp [updateEntry, lookupA, h1, h2, ih k j a h]

theorem lookupA_updateEntry_self : ∀ (m : List (Int × Nat)) (k : Int) (a : Nat),
    (lookupA (updateEntry m k a) k).isSome := by
  intro m
  induction m with
  | nil => intro k a; simp [updateEntry, lookupA]
  | cons e rest ih =>
    intro k a
    rcases e with ⟨k1, v⟩
    by_cases h1 : k1 = k <;> simp [updateEntry, lookupA, h1, ih k a]

theorem lookupA_updateEntry_isSome {m : List (Int × Nat)} {j k : Int} {a : Nat}
    (h : (lookupA m j).isSome) : (lookupA (updateEntry m k a) j).isSome := by
  by_cases hj : j = k
  · subst hj; exact lookupA_updateEntry_self m j a
  · rw [lookupA_updateEntry_ne m k j a hj]; exact h

/-- The walk described by claim C1 over a loop body: Left and Right move
the running offset, every Add accumulates into the map with wrapping
byte addition, including at offset zero, and any other instruction
rejects.  This is the claim text; the source walk (mulLoopGo) instead
rejects as soon as an Add occurs at offset zero. -/
def claimWalk : List LRInstruction → Int → List (Int × Nat) → Option (Int × List (Int × Nat))
  | [], off, m => some (off, m)
  | .left a _ :: rest, off, m => claimWalk rest (off - (a : Int)) m
  | .right a _ :: rest, off, m => claimWalk rest (off + (a : Int)) m
  | .add a _ :: rest, off, m => claimWalk rest off (updateEntry m off a)
  | _ :: _, _, _ => none

theorem claimWalk_key_mono : ∀ (rest : List LRInstruction) (off : Int) (m : List (Int × Nat))
    (o : Int) (mm : List (Int × Nat)) (j : Int),
    claimWalk rest off m = some (o, mm) → (lookupA m j).isSome → (lookupA mm j).isSome := by
  intro rest
  induction rest with
  | nil =>
    intro off m o mm j h hs
    simp [claimWalk] at h
    rw [← h.2]; exact hs
  | cons i rest ih =>
    intro off m o mm j h hs
    cases i with
    | left a p => exact ih _ _ _ _ _ (by simpa [claimWalk] using h) hs
    | right a p => exact ih _ _ _ _ _ (by simpa [claimWalk] using h) hs
    | add a p => exact ih _ _ _ _ _ (by simpa [claimWalk] using h) (lookupA_updateEntry_isSome hs)
    | input p => simp [claimWalk] at h
    | output p => simp [claimWalk] at h
    | loop b p => simp [claimWalk] at h
    | clear p => simp [claimWalk] at h
    | mul o2 a p => simp [claimWalk] at h

theorem mulLoopGo_claimWalk : ∀ (rest : List LRInstruction) (off : Int) (m : List (Int × Nat)),
    lookupA m 0 = none → ∀ (o : Int) (mm : List (Int × Nat)),
    (mulLoopGo rest off m = some (o, mm) ↔
      claimWalk rest off m = some (o, mm) ∧ lookupA mm 0 = none) := by
  intro rest
  induction rest with
  | nil =>
    intro off m hm o mm
    simp only [mulLoopGo, claimWalk, Option.some.injEq, Prod.mk.injEq]
    constructor
    · rintro ⟨rfl, rfl⟩; exact ⟨⟨rfl, rfl⟩, hm⟩
    · rintro ⟨⟨rfl, rfl⟩, _⟩; exact ⟨rfl, rfl⟩
  | cons i rest ih =>
    intro off m hm o mm
    cases i with
    | left a p => simp only [mulLoopGo, claimWalk]; exact ih _ _ hm o mm
    | right a p => simp only [mulLoopGo, claimWalk]; exact ih _ _ hm o mm
    | add a p =>
      by_cases hoff : off = 0
      · subst hoff
        simp only [mulLoopGo, claimWalk, if_pos rfl]
        constructor
        · intro h; exact absurd h (by simp)
        · rintro ⟨hw, hz⟩
          have hself := lookupA_updateEntry_self m 0 a
          have h2 := claimWalk_key_mono rest 0 (updateEntry m 0 a) o mm 0 hw hself
          rw [hz] at h2
          simp at h2
      · have hm2 : lookupA (updateEntry m off a) 0 = none := by
          rw [lookupA_updateEntry_ne m off 0 a (fun hh => hoff hh.symm)]
          exact hm
        simp only [mulLoopGo, claimWalk, if_neg hoff]
        exact ih _ _ hm2 o mm
    | input p => simp [mulLoopGo, claimWalk]
    | output p => simp [mulLoopGo, claimWalk]
    | loop b p => simp [mulLoopGo, claimWalk]
    | clear p => simp [mulLoopGo, claimWalk]
    | mul o2 a p => simp [mulLoopGo, claimWalk]

theorem recognize_eq_iff (p : Position) (rest : List LRInstruction) (m : List (Int × Nat)) :
    recognize_mul_loop (.add 255 p :: rest) = some m ↔ mulLoopGo rest 0 [] = some (0, m) := by
  cases hg : mulLoopGo rest 0 [] with
  | none => simp [recognize_mul_loop, hg]
  | some pr =>
    rcases pr with ⟨off, res⟩
    by_cases hoff : off = 0
    · subst hoff; simp [recognize_mul_loop, hg]
    · simp [recognize_mul_loop, hg, hoff]

/-- The loop body parsed from the seven-character program of the spec
example (greater, plus, less, minus, greater, plus, less), with the byte
offsets of the characters as positions, in the IR of the optimizer
passes. -/
def exBody : List LRInstruction :=
  [.right 1 ⟨0, 0⟩, .add 1 ⟨1, 1⟩, .left 1 ⟨2, 2⟩, .add 255 ⟨3, 3⟩,
   .right 1 ⟨4, 4⟩, .add 1 ⟨5, 5⟩, .left 1 ⟨6, 6⟩]

/-- Claim C1 counterexample: the spec example body (no leading minus)
walks to net offset zero with the map sending offset zero to 255 and
offset one to two, so the claim says it is accepted with map one maps to
two; recognize_mul_loop instead returns none, because the source also
requires the body to start with Add 255 and rejects any other Add at
offset zero. -/
theorem claim_C1_counterexample :
    recognize_mul_loop exBody = none ∧
    claimWalk exBody 0 [] = some (0, [(1, 2), (0, 255)]) ∧
    lookupA [((1 : Int), (2 : Nat)), (0, 255)] 0 = some 255 := by
  refine ⟨rfl, by decide, rfl⟩

/-- Claim C1 (amended): recognize_mul_loop accepts exactly the bodies
whose first instruction is Add 255 and whose remaining instructions
walk (Left and Right adjusting the offset, Add accumulating with
wrapping addition) to net offset zero without any Add at offset zero
(equivalently: the accumulated map of the rest has no entry at zero);
the returned map is that walk result.  Acceptance is therefore not
order-invariant, and the example body of the counterexample is
rejected. -/
theorem claim_C1_amended (l : List LRInstruction) (m : List (Int × Nat)) :
    recognize_mul_loop l = some m ↔
      ∃ (p : Position) (rest : List LRInstruction), l = .add 255 p :: rest ∧
        claimWalk rest 0 [] = some (0, m) ∧ lookupA m 0 = none := by
  cases l with
  | nil => simp [recognize_mul_loop]
  | cons first rest =>
    cases first with
    | add a p =>
      by_cases ha : a = 255
      · subst ha
        rw [recognize_eq_iff p rest m, mulLoopGo_claimWalk rest 0 [] rfl 0 m]
        constructor
        · rintro ⟨hw, hz⟩; exact ⟨p, rest, rfl, hw, hz⟩
        · rintro ⟨p1, rest1, heq, hw, hz⟩
          obtain ⟨h1, h2⟩ := List.cons.inj heq
          subst h2
          exact ⟨hw, hz⟩
      · simp [recognize_mul_loop, ha]
    | left a p => simp [recognize_mul_loop]
    | right a p => simp [recognize_mul_loop]
    | input p => simp [recognize_mul_loop]
    | output p => simp [recognize_mul_loop]
    | loop b p => simp [recognize_mul_loop]
    | clear p => simp [recognize_mul_loop]
    | mul o a p => simp [recognize_mul_loop]

/-- Witness for claim C1: the accepted body minus, greater, plus, less,
through the amended characterization. -/
theorem claim_C1_witness :
    recognize_mul_loop
      [.add 255 ⟨0, 0⟩, .right 1 ⟨1, 1⟩, .add 1 ⟨2, 2⟩, .left 1 ⟨3, 3⟩] = some [(1, 1)] :=
  (claim_C1_amended _ _).mpr ⟨⟨0, 0⟩, _, rfl, by decide, by decide⟩

theorem mem_updateEntry : ∀ (m : List (Int × Nat)) (k : Int) (a : Nat) (e : Int × Nat),
    e ∈ updateEntry m k a → e.1 = k ∨ e ∈ m := by
  intro m
  induction m with
  | nil =>
    intro k a e h
    simp [updateEntry] at h
    left; rw [h]
  | cons x rest ih =>
    intro k a e h
    rcases x with ⟨k1, v⟩
    by_cases h1 : k1 = k
    · subst h1
      simp [updateEntry] at h
      rcases h with h | h
      · left; rw [h]
      · right; exact List.mem_cons_of_mem _ h
    · simp only [updateEntry, if_neg h1, List.mem_cons] at h
      rcases h with h | h
      · right; rw [h]; exact List.mem_cons_self _ _
      · rcases ih k a e h with h2 | h2
        · exact Or.inl h2
        · right; exact List.mem_cons_of_mem _ h2

theorem mulLoopGo_keys : ∀ (rest : List LRInstruction) (off : Int) (m : List (Int × Nat))
    (o : Int) (mm : List (Int × Nat)),
    mulLoopGo rest off m = some (o, mm) → (∀ e ∈ m, e.1 ≠ 0) → ∀ e ∈ mm, e.1 ≠ 0 := by
  intro rest
  induction rest with
  | nil =>
    intro off m o mm h hm
    simp [mulLoopGo] at h
    rw [← h.2]; exact hm
  | cons i rest ih =>
    intro off m o mm h hm
    cases i with
    | left a p => exact ih _ _ _ _ (by simpa [mulLoopGo] using h) hm
    | right a p => exact ih _ _ _ _ (by simpa [mulLoopGo] using h) hm
    | add a p =>
      by_cases hoff : off = 0
      · subst hoff; simp [mulLoopGo] at h
      · simp only [mulLoopGo, if_neg hoff] at h
        refine ih _ _ _ _ h ?_
        intro e he
        rcases mem_updateEntry m off a e he with h2 | h2
        · rw [h2]; exact hoff
        · exact hm e h2
    | input p => simp [mulLoopGo] at h
    | output p => simp [mulLoopGo] at h
    | loop b p => simp [mulLoopGo] at h
    | clear p => simp [mulLoopGo] at h
    | mul o2 a p => simp [mulLoopGo] at h

theorem recognize_keys {b : List LRInstruction} {m : List (Int × Nat)}
    (h : recognize_mul_loop b = some m) : ∀ e ∈ m, e.1 ≠ 0 := by
  cases b with
  | nil => simp [recognize_mul_loop] at h
  | cons first rest =>
    cases first with
    | add a p =>
      by_cases ha : a = 255
      · subst ha
        exact mulLoopGo_keys rest 0 [] 0 m ((recognize_eq_iff p rest m).mp h) (by simp)
      · simp [recognize_mul_loop, ha] at h
    | left a p => simp [recognize_mul_loop] at h
    | right a p => simp [recognize_mul_loop] at h
    | input p => simp [recognize_mul_loop] at h
    | output p => simp [recognize_mul_loop] at h
    | loop b2 p => simp [recognize_mul_loop] at h
    | clear p => simp [recognize_mul_loop] at h
    | mul o a p => simp [recognize_mul_loop] at h

theorem mulLoopsRun_nil : mulLoopsRun [] = [] := by
  simp [mulLoopsRun_eq]

theorem mulLoopsRun_cons (i : LRInstruction) (l : List LRInstruction) :
    mulLoopsRun (i :: l) = (mulFlatStep i).map mulRecurse ++ mulLoopsRun l := by
  simp [mulLoopsRun_eq]

theorem map_mulRecurse_muls (p : Position) (L : List (Int × Nat)) :
    (L.map fun e => LRInstruction.mul e.1 e.2 p).map mulRecurse =
      L.map fun e => LRInstruction.mul e.1 e.2 p := by
  rw [List.map_map]
  apply List.map_congr_left
  intro e he
  rfl

/-- Claim C2: the mul-loops pass replaces each loop whose body is
recognized with one Mul per entry of the recognized map (carrying that
entry offset and amount, and the loop position) followed by exactly one
Clear; loops not recognized are kept with the pass applied recursively
to their bodies; and every entry of a recognized map has a nonzero
offset, so every Mul the pass emits has a nonzero offset. -/
theorem claim_C2 :
    (∀ (b : List LRInstruction) (p : Position) (l : List LRInstruction) (m : List (Int × Nat)),
      recognize_mul_loop b = some m →
        mulLoopsRun (.loop b p :: l) =
          (m.map fun e => LRInstruction.mul e.1 e.2 p) ++ LRInstruction.clear p :: mulLoopsRun l) ∧
    (∀ (b : List LRInstruction) (p : Position) (l : List LRInstruction),
      recognize_mul_loop b = none →
        mulLoopsRun (.loop b p :: l) = .loop (mulLoopsRun b) p :: mulLoopsRun l) ∧
    (∀ (b : List LRInstruction) (m : List (Int × Nat)),
      recognize_mul_loop b = some m → ∀ e ∈ m, e.1 ≠ 0) := by
  refine ⟨?_, ?_, ?_⟩
  · intro b p l m hr
    rw [mulLoopsRun_cons]
    simp only [mulFlatStep, hr, List.map_append, map_mulRecurse_muls]
    simp [mulRecurse]
  · intro b p l hr
    rw [mulLoopsRun_cons]
    simp [mulFlatStep, hr, mulRecurse]
  · intro b m hr
    exact recognize_keys hr

/-- Witness for claim C2: the clear-loop body (a single minus) becomes
exactly one Clear, a loop with an Input inside is kept, and the
recognized map of the body minus greater plus less has only nonzero
offsets. -/
theorem claim_C2_witness :
    mulLoopsRun [.loop [.add 255 ⟨0, 0⟩] ⟨0, 0⟩] = [.clear ⟨0, 0⟩] ∧
    mulLoopsRun [.loop [.input ⟨0, 0⟩] ⟨0, 0⟩] = [.loop [.input ⟨0, 0⟩] ⟨0, 0⟩] ∧
    (∀ e ∈ [((1 : Int), (1 : Nat))], e.1 ≠ 0) := by
  refine ⟨?_, ?_, ?_⟩
  · have h := claim_C2.1 [.add 255 ⟨0, 0⟩] ⟨0, 0⟩ [] [] (by rfl)
    simpa [mulLoopsRun_nil] using h
  · have h := claim_C2.2.1 [.input ⟨0, 0⟩] ⟨0, 0⟩ [] (by rfl)
    rw [h]
    simp [mulLoopsRun_eq, mulFlatStep, recognize_mul_loop, mulRecurse]
  · exact claim_C2.2.2 [.add 255 ⟨0, 0⟩, .right 1 ⟨1, 1⟩, .add 1 ⟨2, 2⟩, .left 1 ⟨3, 3⟩]
      [(1, 1)] (by decide)

/-- Claim C5 counterexample: a loop that is the last (here the only)
instruction of the sequence keeps its body unchanged, because the
coalesce adaptor never presents the final accumulated element to the
closure as the left element; the claim says the two Add instructions in
its body are fused by the recursion into loop bodies. -/
theorem claim_C5_counterexample :
    collapseRun [.loop [.add 1 ⟨1, 1⟩, .add 1 ⟨2, 2⟩] ⟨0, 3⟩] =
      [.loop [.add 1 ⟨1, 1⟩, .add 1 ⟨2, 2⟩] ⟨0, 3⟩] ∧
    collapseRun [.loop [.add 1 ⟨1, 1⟩, .add 1 ⟨2, 2⟩] ⟨0, 3⟩] ≠
      [.loop [.add 2 (Position.merge ⟨1, 1⟩ ⟨2, 2⟩)] ⟨0, 3⟩] := by
  have h : collapseRun [.loop [.add 1 ⟨1, 1⟩, .add 1 ⟨2, 2⟩] ⟨0, 3⟩] =
      [.loop [.add 1 ⟨1, 1⟩, .add 1 ⟨2, 2⟩] ⟨0, 3⟩] := by
    simp [collapseRun, collapseGo]
  refine ⟨h, ?_⟩
  rw [h]
  simp

/-- Claim C5 (amended): collapse-increments fuses adjacent Add pairs
with wrapping byte addition, adjacent Left pairs and Right pairs with
wrapping word addition, an adjacent Left and Right pair into their
difference in the direction of the larger amount, and adjacent Clear
pairs, merging positions, greedily left to right; in this IR pointer
moves are Left and Right rather than Move.  The body of a loop is
optimized recursively only when another instruction follows the loop;
a loop in final position keeps its body unchanged. -/
theorem claim_C5_amended :
    (∀ (a b : Nat) (p q : Position) (l : List LRInstruction),
      collapseRun (.add a p :: .add b q :: l) =
        collapseRun (.add (wrap8 (a + b)) (p.merge q) :: l)) ∧
    (∀ (x y : Nat) (p q : Position) (l : List LRInstruction),
      collapseRun (.left x p :: .left y q :: l) =
        collapseRun (.left (wrap64 (x + y)) (p.merge q) :: l)) ∧
    (∀ (x y : Nat) (p q : Position) (l : List LRInstruction),
      collapseRun (.right x p :: .right y q :: l) =
        collapseRun (.right (wrap64 (x + y)) (p.merge q) :: l)) ∧
    (∀ (x y : Nat) (p q : Position) (l : List LRInstruction),
      collapseRun (.left x p :: .right y q :: l) =
        collapseRun ((if y ≤ x then LRInstruction.left (x - y) (p.merge q)
          else LRInstruction.right (y - x) (p.merge q)) :: l)) ∧
    (∀ (x y : Nat) (p q : Position) (l : List LRInstruction),
      collapseRun (.right x p :: .left y q :: l) =
        collapseRun ((if x ≤ y then LRInstruction.left (y - x) (p.merge q)
          else LRInstruction.right (x - y) (p.merge q)) :: l)) ∧
    (∀ (p q : Position) (l : List LRInstruction),
      collapseRun (.clear p :: .clear q :: l) = collapseRun (.clear (p.merge q) :: l)) ∧
    (∀ (b : List LRInstruction) (p : Position),
      collapseRun [.loop b p] = [.loop b p]) ∧
    (∀ (b : List LRInstruction) (p : Position) (x : LRInstruction) (l : List LRInstruction),
      collapseRun (.loop b p :: x :: l) = .loop (collapseRun b) p :: collapseRun (x :: l)) := by
  refine ⟨?_, ?_, ?_, ?_, ?_, ?_, ?_, ?_⟩
  · intro a b p q l; simp [collapseRun, collapseGo, collapseMerge]
  · intro x y p q l; simp [collapseRun, collapseGo, collapseMerge]
  · intro x y p q l; simp [collapseRun, collapseGo, collapseMerge]
  · intro x y p q l
    by_cases hxy : y ≤ x <;> simp [collapseRun, collapseGo, collapseMerge, hxy]
  · intro x y p q l
    by_cases hxy : x ≤ y <;> simp [collapseRun, collapseGo, collapseMerge, hxy]
  · intro p q l; simp [collapseRun, collapseGo, collapseMerge]
  · intro b p; simp [collapseRun, collapseGo]
  · intro b p x l; simp [collapseRun, collapseGo, collapseMerge]

theorem dcStep_none_of_nonloop {last x : LRInstruction} (h : isLoopCtor last = false) :
    dcStep last x = none := by
  cases last with
  | loop b p => simp [isLoopCtor] at h
  | add a p => cases x <;> rfl
  | left a p => cases x <;> rfl
  | right a p => cases x <;> rfl
  | input p => cases x <;> rfl
  | output p => cases x <;> rfl
  | clear p => cases x <;> rfl
  | mul o a p => cases x <;> rfl

theorem dcCoalesceGo_head : ∀ (xs : List LRInstruction) (last : LRInstruction),
    ∃ t, dcCoalesceGo last xs = last :: t := by
  intro xs
  induction xs with
  | nil => intro last; exact ⟨[], rfl⟩
  | cons x xs ih =>
    intro last
    cases hs : dcStep last x with
    | some c =>
      have hc := dcStep_some hs
      rcases ih c with ⟨t, ht⟩
      refine ⟨t, ?_⟩
      simp only [dcCoalesceGo, hs]
      rw [ht, hc]
    | none =>
      exact ⟨dcCoalesceGo x xs, by simp only [dcCoalesceGo, hs]⟩

theorem dcCoalesceGo_nonloop {last : LRInstruction} (h : isLoopCtor last = false)
    (x : LRInstruction) (xs : List LRInstruction) :
    dcCoalesceGo last (x :: xs) = last :: dcCoalesceGo x xs := by
  simp only [dcCoalesceGo, dcStep_none_of_nonloop h]

/-- A single loop (hence any loop in leading position followed by
nothing) is dropped entirely by the dead-code pass. -/
theorem dc_single_loop (b : List LRInstruction) (p : Position) :
    deadCodeRun [.loop b p] = [] := by
  simp [deadCodeRun_eq, List.filter_cons, isNullIncr, dcCoalesce, dcCoalesceGo,
    List.dropWhile, isLoopCtor]

theorem dc_absorb_loop (b : List LRInstruction) (p : Position) (b2 : List LRInstruction)
    (q : Position) (l : List LRInstruction) :
    deadCodeRun (.loop b p :: .loop b2 q :: l) = deadCodeRun (.loop b p :: l) := by
  simp [deadCodeRun_eq, List.filter_cons, isNullIncr, dcCoalesce, dcCoalesceGo, dcStep]

theorem dc_absorb_clear (b : List LRInstruction) (p : Position) (q : Position)
    (l : List LRInstruction) :
    deadCodeRun (.loop b p :: .clear q :: l) = deadCodeRun (.loop b p :: l) := by
  simp [deadCodeRun_eq, List.filter_cons, isNullIncr, dcCoalesce, dcCoalesceGo, dcStep]

/-- For a sequence starting with a non-loop survivor of the filter, the
whole pipeline is the element followed by the processed remainder; used
to show that leading Clear and Mul instructions survive. -/
theorem dc_head_nonloop {y : LRInstruction} (hl : isLoopCtor y = false)
    (hn : isNullIncr y = false) (l : List LRInstruction) :
    ∃ t, deadCodeRun (y :: l) = dcRecurse y :: t := by
  rw [deadCodeRun_eq]
  have hf : (y :: l).filter (fun i => !isNullIncr i) =
      y :: l.filter (fun i => !isNullIncr i) := by
    simp [List.filter_cons, hn]
  rw [hf]
  cases hfl : l.filter (fun i => !isNullIncr i) with
  | nil =>
    refine ⟨[], ?_⟩
    simp [dcCoalesce, dcCoalesceGo, List.dropWhile, hl]
  | cons z zs =>
    rw [show dcCoalesce (y :: z :: zs) = dcCoalesceGo y (z :: zs) from rfl,
      dcCoalesceGo_nonloop hl]
    refine ⟨(dcCoalesceGo z zs).map dcRecurse, ?_⟩
    simp [List.dropWhile, hl]

theorem dc_core_lead_loop (b : List LRInstruction) (p : Position) (y : LRInstruction)
    (hy1 : dcStep (.loop b p) y = none) (hy2 : isLoopCtor y = false)
    (fl : List LRInstruction) :
    (dcCoalesce (.loop b p :: y :: fl)).dropWhile isLoopCtor =
      (dcCoalesce (y :: fl)).dropWhile isLoopCtor := by
  obtain ⟨t, ht⟩ := dcCoalesceGo_head fl y
  show (dcCoalesceGo (.loop b p) (y :: fl)).dropWhile isLoopCtor =
    (dcCoalesceGo y fl).dropWhile isLoopCtor
  simp only [dcCoalesceGo, hy1]
  rw [ht]
  simp [List.dropWhile_cons, isLoopCtor, hy2]

theorem dc_drop_lead_loop (b : List LRInstruction) (p : Position) (a : Nat) (q : Position)
    (l : List LRInstruction) (ha : ¬ a = 0) :
    deadCodeRun (.loop b p :: .add a q :: l) = deadCodeRun (.add a q :: l) := by
  rw [deadCodeRun_eq, deadCodeRun_eq]
  have h1 : (LRInstruction.loop b p :: LRInstruction.add a q :: l).filter
      (fun i => !isNullIncr i) =
      .loop b p :: .add a q :: l.filter (fun i => !isNullIncr i) := by
    simp [List.filter_cons, isNullIncr, ha]
  have h2 : (LRInstruction.add a q :: l).filter (fun i => !isNullIncr i) =
      .add a q :: l.filter (fun i => !isNullIncr i) := by
    simp [List.filter_cons, isNullIncr, ha]
  rw [h1, h2, dc_core_lead_loop b p (.add a q) rfl rfl]

theorem dc_take2 {y z : LRInstruction} (hy1 : isLoopCtor y = false)
    (hyn : isNullIncr y = false) (hzn : isNullIncr z = false) (l : List LRInstruction) :
    (deadCodeRun (y :: z :: l)).take 2 = [dcRecurse y, dcRecurse z] := by
  rw [deadCodeRun_eq]
  have h1 : (y :: z :: l).filter (fun i => !isNullIncr i) =
      y :: z :: l.filter (fun i => !isNullIncr i) := by
    simp [List.filter_cons, hyn, hzn]
  rw [h1]
  obtain ⟨t, ht⟩ := dcCoalesceGo_head (l.filter (fun i => !isNullIncr i)) z
  rw [show dcCoalesce (y :: z :: l.filter (fun i => !isNullIncr i)) =
    dcCoalesceGo y (z :: l.filter (fun i => !isNullIncr i)) from rfl]
  rw [dcCoalesceGo_nonloop hy1, ht]
  simp [List.dropWhile_cons, hy1, List.take]

/-- Claim C6 counterexample: a sequence beginning with a Clear keeps it;
the claim says every leading loop-like instruction (Loop, Clear or Mul)
is dropped at the top level. -/
theorem claim_C6_counterexample :
    deadCodeRun [.clear ⟨0, 0⟩] = [.clear ⟨0, 0⟩] ∧
    ([LRInstruction.clear ⟨0, 0⟩] : List LRInstruction) ≠ [] := by
  constructor
  · simp [deadCodeRun_eq, List.filter_cons, isNullIncr, dcCoalesce, dcCoalesceGo,
      List.dropWhile, isLoopCtor, dcRecurse]
  · simp

/-- Claim C6 (amended): the dead-code pass drops leading Loop
instructions only: a loop at the start of the sequence is removed (after
absorbing Loop and Clear neighbours through the coalesce stage), while a
leading Clear or Mul survives as the first output instruction; and the
dropping is not restricted to the top level: the recursion into loop
bodies reapplies the whole pass, including the leading-loop removal. -/
theorem claim_C6_amended :
    (∀ (b : List LRInstruction) (p : Position), deadCodeRun [.loop b p] = []) ∧
    (∀ (b : List LRInstruction) (p : Position) (a : Nat) (q : Position)
      (l : List LRInstruction), a ≠ 0 →
      deadCodeRun (.loop b p :: .add a q :: l) = deadCodeRun (.add a q :: l)) ∧
    (∀ (p : Position) (l : List LRInstruction),
      (deadCodeRun (.clear p :: l)).head? = some (.clear p)) ∧
    (∀ (o : Int) (a : Nat) (p : Position) (l : List LRInstruction),
      (deadCodeRun (.mul o a p :: l)).head? = some (.mul o a p)) ∧
    (∀ (b : List LRInstruction) (p r : Position) (a : Nat) (q : Position), a ≠ 0 →
      deadCodeRun [.add a q, .loop [.loop b p] r] = [.add a q, .loop [] r]) := by
  refine ⟨dc_single_loop, ?_, ?_, ?_, ?_⟩
  · intro b p a q l ha
    exact dc_drop_lead_loop b p a q l ha
  · intro p l
    obtain ⟨t, ht⟩ := @dc_head_nonloop (.clear p) rfl rfl l
    rw [ht]; rfl
  · intro o a p l
    obtain ⟨t, ht⟩ := @dc_head_nonloop (.mul o a p) rfl rfl l
    rw [ht]; rfl
  · intro b p r a q ha
    rw [deadCodeRun_eq]
    have h1 : ([LRInstruction.add a q, LRInstruction.loop [.loop b p] r]).filter
        (fun i => !isNullIncr i) = [.add a q, .loop [.loop b p] r] := by
      simp [List.filter_cons, isNullIncr, ha]
    rw [h1]
    rw [show dcCoalesce [LRInstruction.add a q, .loop [.loop b p] r] =
      [.add a q, .loop [.loop b p] r] from rfl]
    rw [show ([LRInstruction.add a q, LRInstruction.loop [.loop b p] r]).dropWhile isLoopCtor =
      [.add a q, .loop [.loop b p] r] from rfl]
    simp [dcRecurse, dc_single_loop]

/-- Witness for claim C6: a leading empty loop before an Add is dropped,
and a loop nested inside a loop body is dropped by the recursion as
well. -/
theorem claim_C6_witness :
    deadCodeRun [.loop [] ⟨0, 0⟩, .add 1 ⟨1, 1⟩] = deadCodeRun [.add 1 ⟨1, 1⟩] ∧
    deadCodeRun [.add 1 ⟨0, 0⟩, .loop [.loop [] ⟨2, 2⟩] ⟨1, 3⟩] =
      [.add 1 ⟨0, 0⟩, .loop [] ⟨1, 3⟩] :=
  ⟨claim_C6_amended.2.1 [] ⟨0, 0⟩ 1 ⟨1, 1⟩ [] (by decide),
   claim_C6_amended.2.2.2.2 [] ⟨2, 2⟩ ⟨1, 3⟩ 1 ⟨0, 0⟩ (by decide)⟩

/-- Claim C7 counterexample: an adjacent pair of a Clear followed by a
Loop is left alone by the dead-code pass; the claim says the pair loses
its second element because Clear clears the current cell. -/
theorem claim_C7_counterexample :
    deadCodeRun [.clear ⟨0, 0⟩, .loop [] ⟨1, 2⟩] = [.clear ⟨0, 0⟩, .loop [] ⟨1, 2⟩] ∧
    [LRInstruction.clear ⟨0, 0⟩, .loop [] ⟨1, 2⟩] ≠ [LRInstruction.clear ⟨0, 0⟩] := by
  constructor
  · simp [deadCodeRun_eq, List.filter_cons, isNullIncr, dcCoalesce, dcCoalesceGo, dcStep,
      List.dropWhile, isLoopCtor, dcRecurse]
  · simp

/-- Claim C7 (amended): the dead-code pass fuses exactly the adjacent
pairs whose first element is a Loop and whose second is a Loop or a
Clear, keeping the first element; a pair led by a Clear is never fused
(both elements survive); and a Mul as second element is never absorbed:
a Loop followed by a Mul does not fuse, so the sequence behaves as if
the Loop stood alone before the Mul (at the head of the sequence the
Loop is then removed by the separate leading-loop rule and the Mul
survives, losing the first element of the pair rather than the
second). -/
theorem claim_C7_amended :
    (∀ (b : List LRInstruction) (p : Position) (b2 : List LRInstruction) (q : Position)
      (l : List LRInstruction),
      deadCodeRun (.loop b p :: .loop b2 q :: l) = deadCodeRun (.loop b p :: l)) ∧
    (∀ (b : List LRInstruction) (p q : Position) (l : List LRInstruction),
      deadCodeRun (.loop b p :: .clear q :: l) = deadCodeRun (.loop b p :: l)) ∧
    (∀ (b : List LRInstruction) (p : Position) (o : Int) (a : Nat) (q : Position)
      (l : List LRInstruction),
      deadCodeRun (.loop b p :: .mul o a q :: l) = deadCodeRun (.mul o a q :: l)) ∧
    (∀ (p q : Position) (l : List LRInstruction),
      (deadCodeRun (.clear p :: .clear q :: l)).take 2 = [.clear p, .clear q]) ∧
    (∀ (p : Position) (b : List LRInstruction) (q : Position) (l : List LRInstruction),
      (deadCodeRun (.clear p :: .loop b q :: l)).take 2 =
        [.clear p, .loop (deadCodeRun b) q]) ∧
    (∀ (p : Position) (o : Int) (a : Nat) (q : Position) (l : List LRInstruction),
      (deadCodeRun (.clear p :: .mul o a q :: l)).take 2 = [.clear p, .mul o a q]) := by
  refine ⟨dc_absorb_loop, dc_absorb_clear, ?_, ?_, ?_, ?_⟩
  · intro b p o a q l
    rw [deadCodeRun_eq, deadCodeRun_eq]
    have h1 : (LRInstruction.loop b p :: LRInstruction.mul o a q :: l).filter
        (fun i => !isNullIncr i) =
        .loop b p :: .mul o a q :: l.filter (fun i => !isNullIncr i) := by
      simp [List.filter_cons, isNullIncr]
    have h2 : (LRInstruction.mul o a q :: l).filter (fun i => !isNullIncr i) =
        .mul o a q :: l.filter (fun i => !isNullIncr i) := by
      simp [List.filter_cons, isNullIncr]
    rw [h1, h2, dc_core_lead_loop b p (.mul o a q) rfl rfl]
  · intro p q l
    simpa [dcRecurse] using @dc_take2 (.clear p) (.clear q) rfl rfl rfl l
  · intro p b q l
    simpa [dcRecurse] using @dc_take2 (.clear p) (.loop b q) rfl rfl rfl l
  · intro p o a q l
    simpa [dcRecurse] using @dc_take2 (.clear p) (.mul o a q) rfl rfl rfl l

mutual

/-- No Add, Right or Left with zero amount occurs in this instruction,
recursively through loop bodies. -/
def noNullInstr : LRInstruction → Bool
  | .loop b _ => noNullList b
  | i => !isNullIncr i

/-- No Add, Right or Left with zero amount occurs anywhere in the
sequence, recursively through loop bodies. -/
def noNullList : List LRInstruction → Bool
  | [] => true
  | x :: xs => noNullInstr x && noNullList xs

end

theorem noNullList_iff (L : List LRInstruction) :
    noNullList L = true ↔ ∀ x ∈ L, noNullInstr x = true := by
  induction L with
  | nil => simp [noNullList]
  | cons x xs ih => simp [noNullList, ih]

theorem dc_noNull_aux : ∀ (n : Nat) (l : List LRInstruction), listWeight l ≤ n →
    noNullList (deadCodeRun l) = true := by
  intro n
  induction n with
  | zero =>
    intro l hl
    cases l with
    | nil =>
      rw [deadCodeRun_eq]
      simp [dcCoalesce, noNullList]
    | cons x xs =>
      exfalso
      have := instrWeight_pos x
      simp [listWeight] at hl
  | succ n ih =>
    intro l hl
    rw [deadCodeRun_eq]
    apply (noNullList_iff _).mpr
    intro x hx
    rcases List.mem_map.mp hx with ⟨y, hy, rfl⟩
    have hmem2 := mem_dcCoalesce (mem_of_mem_dropWhile hy)
    have hyl : y ∈ l := List.mem_of_mem_filter hmem2
    have hynull : (!isNullIncr y) = true := (List.mem_filter.mp hmem2).2
    cases y with
    | loop b p =>
      have hb : listWeight b < listWeight l := listWeight_body_lt hyl
      have hrec := ih b (by omega)
      simpa [dcRecurse, noNullInstr] using hrec
    | add a p => simpa [dcRecurse, noNullInstr] using hynull
    | left a p => simpa [dcRecurse, noNullInstr] using hynull
    | right a p => simpa [dcRecurse, noNullInstr] using hynull
    | input p => simpa [dcRecurse, noNullInstr] using hynull
    | output p => simpa [dcRecurse, noNullInstr] using hynull
    | clear p => simpa [dcRecurse, noNullInstr] using hynull
    | mul o a p => simpa [dcRecurse, noNullInstr] using hynull

/-- Claim C8: the output of the dead-code pass contains no Add with
amount zero and no Right or Left with amount zero (the null pointer
moves of this IR, which a single Move with offset zero corresponds to),
at any depth: the recursion into surviving loop bodies reapplies the
filter inside them. -/
theorem claim_C8 (l : List LRInstruction) : noNullList (deadCodeRun l) = true :=
  dc_noNull_aux (listWeight l) l le_rfl

theorem compute_offset_error {s : InterpState} {off : Int} {e : BFErr}
    (h : compute_offset s off = .error e) :
    e = .tapeUnderflow ∨ e = .tapeOverflow := by
  unfold compute_offset at h
  split at h
  · left; injection h with h1; exact h1.symm
  · split at h
    · right; injection h with h1; exact h1.symm
    · exact absurd h (by simp)

theorem compute_offset_ok_lt {s : InterpState} {off : Int} {t : Nat}
    (h : compute_offset s off = .ok t) :
    t < s.tape.length ∧ (s.tape_position : Int) + off = (t : Int) := by
  unfold compute_offset at h
  split at h
  · exact absurd h (by simp)
  · split at h
    · exact absurd h (by simp)
    · rename_i h1 h2
      injection h with h3
      constructor
      · omega
      · omega

/-- Claim C3: executing Mul when the current cell is zero is a no-op
(no error even when the target is out of bounds); otherwise the target
is computed and bounds-checked exactly like Move (negative target gives
TapeUnderflow, target at or beyond the tape length gives TapeOverflow),
and on success the target cell becomes its old value plus the current
cell times the amount, modulo 256, while the data pointer and all other
cells are unchanged. -/
theorem claim_C3 (fuel : Nat) (s : InterpState) (off : Int) (a : Nat) (p : Position)
    (hpos : s.tape_position < s.tape.length) :
    (tapeAt s = 0 → run fuel [.mul off a p] s = some (.ok s)) ∧
    (tapeAt s ≠ 0 →
      ((s.tape_position : Int) + off < 0 →
        run fuel [.mul off a p] s = some (.error (.tapeUnderflow, s))) ∧
      ((s.tape.length : Int) ≤ (s.tape_position : Int) + off →
        run fuel [.mul off a p] s = some (.error (.tapeOverflow, s))) ∧
      (∀ t : Nat, (s.tape_position : Int) + off = (t : Int) → t < s.tape.length →
        run fuel [.mul off a p] s = some (.ok { s with
          tape := s.tape.set t ((s.tape.getD t 0 + tapeAt s * a) % 256) }))) := by
  constructor
  · intro h0
    simp [run, h0]
  · intro hne
    refine ⟨?_, ?_, ?_⟩
    · intro hu
      have hc : compute_offset s off = .error .tapeUnderflow := by
        simp [compute_offset, hu]
      simp [run, hne, hc]
    · intro hov
      have hnu : ¬ (s.tape_position : Int) + off < 0 := by omega
      have hc : compute_offset s off = .error .tapeOverflow := by
        simp [compute_offset, hnu, hov]
      simp [run, hne, hc]
    · intro t ht hlt
      have h1 : ¬ (s.tape_position : Int) + off < 0 := by omega
      have h2 : ¬ (s.tape.length : Int) ≤ (s.tape_position : Int) + off := by omega
      have hc : compute_offset s off = .ok t := by
        unfold compute_offset
        rw [ht, if_neg (by omega), if_neg (by omega)]
        simp
      have harith : wrap8 (s.tape.getD t 0 + wrap8 (tapeAt s * a)) =
          (s.tape.getD t 0 + tapeAt s * a) % 256 := by
        unfold wrap8
        omega
      have hrun : run fuel [.mul off a p] s = some (.ok { s with
          tape := s.tape.set t (wrap8 (s.tape.getD t 0 + wrap8 (tapeAt s * a))) }) := by
        simp [run, hne, hc]
      rw [hrun, harith]

/-- Witness for claim C3: a two-cell tape with values 2 and 3; the Mul
with offset one and amount five writes 13 into the second cell, and a
Mul over a zero current cell is a no-op even with a far out-of-bounds
target. -/
theorem claim_C3_witness :
    run 1 [.mul 1 5 ⟨0, 0⟩] ⟨[2, 3], 0, none, none⟩ =
      some (.ok ⟨[2, 13], 0, none, none⟩) ∧
    run 1 [.mul 50 7 ⟨0, 0⟩] ⟨[0], 0, none, none⟩ = some (.ok ⟨[0], 0, none, none⟩) := by
  constructor
  · have h := ((claim_C3 1 ⟨[2, 3], 0, none, none⟩ 1 5 ⟨0, 0⟩ (by simp)).2
      (by simp [tapeAt])).2.2 1 (by simp) (by simp)
    simpa [tapeAt] using h
  · exact (claim_C3 1 ⟨[0], 0, none, none⟩ 50 7 ⟨0, 0⟩ (by simp)).1 (by simp [tapeAt])

/-- Claim C9: when a single Move or Mul instruction fails, it fails with
TapeUnderflow or TapeOverflow and the interpreter state carried out with
the error is exactly the state from before the instruction: the bounds
check happens before any assignment, so the failing instruction has
modified nothing. -/
theorem claim_C9 (fuel : Nat) (s se : InterpState) (off : Int) (a : Nat) (p : Position)
    (e : BFErr) :
    (run fuel [.move off p] s = some (.error (e, se)) →
      se = s ∧ (e = .tapeUnderflow ∨ e = .tapeOverflow)) ∧
    (run fuel [.mul off a p] s = some (.error (e, se)) →
      se = s ∧ (e = .tapeUnderflow ∨ e = .tapeOverflow)) := by
  constructor
  · intro h
    cases hc : compute_offset s off with
    | error e2 =>
      simp only [run, hc] at h
      simp at h
      obtain ⟨he, hse⟩ := h
      refine ⟨hse.symm, ?_⟩
      rw [← he]
      exact compute_offset_error hc
    | ok t =>
      simp only [run, hc] at h
      simp [run] at h
  · intro h
    by_cases h0 : tapeAt s = 0
    · simp [run, h0] at h
    · cases hc : compute_offset s off with
      | error e2 =>
        simp only [run, if_neg h0, hc] at h
        simp at h
        obtain ⟨he, hse⟩ := h
        refine ⟨hse.symm, ?_⟩
        rw [← he]
        exact compute_offset_error hc
      | ok t =>
        simp only [run, if_neg h0, hc] at h
        simp [run] at h

/-- Witness for claim C9: a Move by minus one from position zero fails
with TapeUnderflow and the carried state is the starting state. -/
theorem claim_C9_witness :
    run 0 [.move (-1) ⟨0, 0⟩] (buildState 1) =
      some (.error (.tapeUnderflow, buildState 1)) ∧
    (buildState 1 = buildState 1 ∧
      (BFErr.tapeUnderflow = .tapeUnderflow ∨ BFErr.tapeUnderflow = .tapeOverflow)) := by
  have hrun : run 0 [.move (-1) ⟨0, 0⟩] (buildState 1) =
      some (.error (.tapeUnderflow, buildState 1)) := by
    simp [run, compute_offset, buildState]
  exact ⟨hrun, (claim_C9 0 (buildState 1) (buildState 1) (-1) 0 ⟨0, 0⟩ .tapeUnderflow).1 hrun⟩

/-- The interpreter state invariant: the data pointer is strictly inside
the tape. -/
def stateInv (s : InterpState) : Prop := s.tape_position < s.tape.length

/-- Both normal and error outcomes of a run from s keep the tape length
of s and the data-pointer invariant. -/
def preservesFrom (s : InterpState)
    (r : Option (Except (BFErr × InterpState) InterpState)) : Prop :=
  (∀ s1, r = some (.ok s1) → s1.tape.length = s.tape.length ∧ stateInv s1) ∧
  (∀ e se, r = some (.error (e, se)) → se.tape.length = s.tape.length ∧ stateInv se)

theorem preservesFrom_mono {s s2 : InterpState}
    {r : Option (Except (BFErr × InterpState) InterpState)}
    (hlen : s2.tape.length = s.tape.length) (h : preservesFrom s2 r) : preservesFrom s r := by
  constructor
  · intro s1 hr
    obtain ⟨h1, h2⟩ := h.1 s1 hr
    exact ⟨h1.trans hlen, h2⟩
  · intro e se hr
    obtain ⟨h1, h2⟩ := h.2 e se hr
    exact ⟨h1.trans hlen, h2⟩

theorem preservesFrom_ok {s : InterpState} (hs : stateInv s) :
    preservesFrom s (some (.ok s)) := by
  constructor
  · intro s1 hr
    simp at hr
    rw [← hr]
    exact ⟨rfl, hs⟩
  · intro e se hr
    simp at hr

theorem preservesFrom_err {s : InterpState} (hs : stateInv s) (e : BFErr) :
    preservesFrom s (some (.error (e, s))) := by
  constructor
  · intro s1 hr
    simp at hr
  · intro e2 se hr
    simp at hr
    rw [← hr.2]
    exact ⟨rfl, hs⟩

theorem preservesFrom_none (s : InterpState) : preservesFrom s none :=
  ⟨fun _ h => by simp at h, fun _ _ h => by simp at h⟩

theorem run_preservesFrom : ∀ (fuel : Nat) (l : List Instruction) (s : InterpState),
    stateInv s → preservesFrom s (run fuel l s) := by
  intro fuel
  induction fuel using Nat.strong_induction_on with
  | _ fuel ihf =>
    intro l
    induction l with
    | nil =>
      intro s hs
      simp only [run]
      exact preservesFrom_ok hs
    | cons i rest ihl =>
      intro s hs
      cases i with
      | move off p =>
        cases hc : compute_offset s off with
        | error e2 =>
          simp only [run, hc]
          exact preservesFrom_err hs e2
        | ok t =>
          obtain ⟨ht, -⟩ := compute_offset_ok_lt hc
          simp only [run, hc]
          exact preservesFrom_mono rfl (ihl { s with tape_position := t } ht)
      | add a p =>
        simp only [run]
        exact preservesFrom_mono (by simp)
          (ihl _ (by simpa [stateInv, List.length_set] using hs))
      | input p =>
        cases hi : s.inp with
        | none =>
          simp only [run, hi]
          exact preservesFrom_mono (by simp)
            (ihl _ (by simpa [stateInv, List.length_set] using hs))
        | some bs =>
          cases bs with
          | nil =>
            simp only [run, hi]
            exact preservesFrom_err hs .ioError
          | cons b bs2 =>
            simp only [run, hi]
            exact preservesFrom_mono (by simp)
              (ihl _ (by simpa [stateInv, List.length_set] using hs))
      | output p =>
        cases ho : s.out with
        | none =>
          simp only [run, ho]
          exact ihl s hs
        | some o =>
          simp only [run, ho]
          exact preservesFrom_mono (by simp) (ihl _ (by simpa [stateInv] using hs))
      | clear p =>
        simp only [run]
        exact preservesFrom_mono (by simp)
          (ihl _ (by simpa [stateInv, List.length_set] using hs))
      | mul off a p =>
        by_cases h0 : tapeAt s = 0
        · simp only [run, if_pos h0]
          exact ihl s hs
        · cases hc : compute_offset s off with
          | error e2 =>
            simp only [run, if_neg h0, hc]
            exact preservesFrom_err hs e2
          | ok t =>
            simp only [run, if_neg h0, hc]
            exact preservesFrom_mono (by simp)
              (ihl _ (by simpa [stateInv, List.length_set] using hs))
      | loop body p =>
        cases fuel with
        | zero =>
          by_cases h0 : tapeAt s = 0
          · simp only [run, if_pos h0]
            exact ihl s hs
          · simp only [run, if_neg h0]
            exact preservesFrom_none s
        | succ fuel1 =>
          by_cases h0 : tapeAt s = 0
          · simp only [run, if_pos h0]
            exact ihl s hs
          · simp only [run, if_neg h0]
            cases hb : run fuel1 body s with
            | none =>
              simp only [hb]
              exact preservesFrom_none s
            | some res =>
              cases res with
              | error es =>
                rcases es with ⟨e, se⟩
                obtain ⟨hlen, hinv⟩ :=
                  (ihf fuel1 (Nat.lt_succ_self _) body s hs).2 e se hb
                simp only [hb]
                constructor
                · intro s1 h
                  simp at h
                · intro e2 se2 h
                  simp at h
                  rw [← h.2]
                  exact ⟨hlen, hinv⟩
              | ok s1 =>
                obtain ⟨hlen1, hinv1⟩ :=
                  (ihf fuel1 (Nat.lt_succ_self _) body s hs).1 s1 hb
                simp only [hb]
                exact preservesFrom_mono hlen1
                  (ihf fuel1 (Nat.lt_succ_self _) (.loop body p :: rest) s1 hinv1)

/-- Claim C10: an interpreter built with a positive tape size starts
with a tape of exactly that length, data pointer zero, and satisfies
the invariant; running any instruction sequence, whether it succeeds,
fails, or exhausts the fuel bound, never changes the tape length and
keeps the data pointer inside the tape in the resulting or
error-carried state. -/
theorem claim_C10 :
    (∀ n : Nat, 0 < n →
      (buildState n).tape.length = n ∧ (buildState n).tape_position = 0 ∧
        stateInv (buildState n)) ∧
    (∀ (fuel : Nat) (l : List Instruction) (s : InterpState), stateInv s →
      (∀ s1, run fuel l s = some (.ok s1) →
        s1.tape.length = s.tape.length ∧ stateInv s1) ∧
      (∀ e se, run fuel l s = some (.error (e, se)) →
        se.tape.length = s.tape.length ∧ stateInv se)) := by
  constructor
  · intro n hn
    refine ⟨by simp [buildState], rfl, ?_⟩
    simp [stateInv, buildState]
    exact hn
  · intro fuel l s hs
    exact run_preservesFrom fuel l s hs

/-- Witness for claim C10: the freshly built two-cell interpreter, and a
one-instruction run that keeps a one-cell tape at length one. -/
theorem claim_C10_witness :
    ((buildState 2).tape.length = 2 ∧ (buildState 2).tape_position = 0 ∧
      stateInv (buildState 2)) ∧
    ((⟨[5], 0, none, none⟩ : InterpState).tape.length = (buildState 1).tape.length ∧
      stateInv (⟨[5], 0, none, none⟩ : InterpState)) := by
  refine ⟨claim_C10.1 2 (by decide), ?_⟩
  have hrun : run 1 [.add 5 ⟨0, 0⟩] (buildState 1) = some (.ok ⟨[5], 0, none, none⟩) := by
    simp [run, buildState, tapeAt, wrap8]
  exact (claim_C10.2 1 [.add 5 ⟨0, 0⟩] (buildState 1)
    (by simp [stateInv, buildState])).1 _ hrun

theorem parseGo_spec : ∀ (bytes : List Nat) (idx : Nat) (instrs : List Instruction)
    (stack : List (List Instruction × Nat)),
    (∀ is, parseGo bytes idx instrs stack = .ok is →
      balancedAux bytes stack.length = true ∧
      errPosAux bytes idx (stack.map Prod.snd) = none) ∧
    (∀ e, parseGo bytes idx instrs stack = .error e →
      balancedAux bytes stack.length = false ∧
      errPosAux bytes idx (stack.map Prod.snd) = some e.position.start ∧
      e.position.stop = e.position.start) := by
  intro bytes
  induction bytes with
  | nil =>
    intro idx instrs stack
    cases stack with
    | nil =>
      constructor
      · intro is h
        exact ⟨rfl, rfl⟩
      · intro e h
        simp [parseGo] at h
    | cons top stack1 =>
      rcases top with ⟨saved, index⟩
      constructor
      · intro is h
        simp [parseGo] at h
      · intro e h
        have he : e = ⟨"This [ has no matching closing ].", ⟨index, index⟩⟩ := by
          simp [parseGo] at h
          exact h.symm
        subst he
        refine ⟨?_, ?_, rfl⟩
        · simp [balancedAux]
        · simp [errPosAux]
  | cons b bs ih =>
    intro idx instrs stack
    by_cases hb91 : b = 91
    · subst hb91
      have hrec := ih (idx + 1) [] ((instrs, idx) :: stack)
      constructor
      · intro is h
        rw [show parseGo (91 :: bs) idx instrs stack =
            parseGo bs (idx + 1) [] ((instrs, idx) :: stack) from by simp [parseGo]] at h
        obtain ⟨hbal, herr⟩ := hrec.1 is h
        constructor
        · simpa [balancedAux] using hbal
        · simpa [errPosAux] using herr
      · intro e h
        rw [show parseGo (91 :: bs) idx instrs stack =
            parseGo bs (idx + 1) [] ((instrs, idx) :: stack) from by simp [parseGo]] at h
        obtain ⟨hbal, herr, hstop⟩ := hrec.2 e h
        exact ⟨by simpa [balancedAux] using hbal, by simpa [errPosAux] using herr, hstop⟩
    · by_cases hb93 : b = 93
      · subst hb93
        cases stack with
        | nil =>
          constructor
          · intro is h
            simp [parseGo] at h
          · intro e h
            have he : e = ⟨"This ] has no matching opening [.", ⟨idx, idx⟩⟩ := by
              simp [parseGo] at h
              exact h.symm
            subst he
            refine ⟨?_, ?_, rfl⟩
            · simp [balancedAux]
            · simp [errPosAux]
        | cons top stack1 =>
          rcases top with ⟨parent, pidx⟩
          have hrec := ih (idx + 1) (parent ++ [.loop instrs ⟨pidx, idx⟩]) stack1
          constructor
          · intro is h
            rw [show parseGo (93 :: bs) idx instrs ((parent, pidx) :: stack1) =
                parseGo bs (idx + 1) (parent ++ [.loop instrs ⟨pidx, idx⟩]) stack1 from by
              simp [parseGo]] at h
            obtain ⟨hbal, herr⟩ := hrec.1 is h
            constructor
            · simpa [balancedAux] using hbal
            · simpa [errPosAux] using herr
          · intro e h
            rw [show parseGo (93 :: bs) idx instrs ((parent, pidx) :: stack1) =
                parseGo bs (idx + 1) (parent ++ [.loop instrs ⟨pidx, idx⟩]) stack1 from by
              simp [parseGo]] at h
            obtain ⟨hbal, herr, hstop⟩ := hrec.2 e h
            exact ⟨by simpa [balancedAux] using hbal, by simpa [errPosAux] using herr, hstop⟩
      · have hstep : ∃ instrs2, parseGo (b :: bs) idx instrs stack =
            parseGo bs (idx + 1) instrs2 stack := by
          by_cases h62 : b = 62
          · subst h62
            exact ⟨instrs ++ [.move 1 ⟨idx, idx⟩], by simp [parseGo]⟩
          · by_cases h60 : b = 60
            · subst h60
              exact ⟨instrs ++ [.move (-1) ⟨idx, idx⟩], by simp [parseGo]⟩
            · by_cases h43 : b = 43
              · subst h43
                exact ⟨instrs ++ [.add 1 ⟨idx, idx⟩], by simp [parseGo]⟩
              · by_cases h45 : b = 45
                · subst h45
                  exact ⟨instrs ++ [.add 255 ⟨idx, idx⟩], by simp [parseGo]⟩
                · by_cases h46 : b = 46
                  · subst h46
                    exact ⟨instrs ++ [.output ⟨idx, idx⟩], by simp [parseGo]⟩
                  · by_cases h44 : b = 44
                    · subst h44
                      exact ⟨instrs ++ [.input ⟨idx, idx⟩], by simp [parseGo]⟩
                    · exact ⟨instrs, by
                        simp [parseGo, h62, h60, h43, h45, h46, h44, hb91, hb93]⟩
        obtain ⟨instrs2, hstep⟩ := hstep
        have hrec := ih (idx + 1) instrs2 stack
        constructor
        · intro is h
          rw [hstep] at h
          obtain ⟨hbal, herr⟩ := hrec.1 is h
          exact ⟨by simpa [balancedAux, hb91, hb93] using hbal,
            by simpa [errPosAux, hb91, hb93] using herr⟩
        · intro e h
          rw [hstep] at h
          obtain ⟨hbal, herr, hstop⟩ := hrec.2 e h
          exact ⟨by simpa [balancedAux, hb91, hb93] using hbal,
            by simpa [errPosAux, hb91, hb93] using herr, hstop⟩

/-- Claim C4 counterexample: parsing two open brackets fails with the
position of the bracket at offset one, the innermost still-open bracket
(the last pair popped from the stack); the claim says the outermost, at
offset zero. -/
theorem claim_C4_counterexample :
    parse [91, 91] = .error ⟨"This [ has no matching closing ].", ⟨1, 1⟩⟩ ∧
    (1 : Nat) ≠ 0 :=
  ⟨rfl, by decide⟩

/-- Claim C4 (amended): parsing a pure byte stream succeeds exactly when
the brackets are balanced; on end of input with open brackets the error
position is the byte offset of the innermost (most recently opened)
still-open bracket, and a close bracket with no open bracket fails at
its own offset — both captured by the reference scanner errPos, which
reports the head of the open-bracket stack at end of input and the
offset of an unmatched close. -/
theorem claim_C4_amended :
    (∀ bytes : List Nat, (∃ is, parse bytes = .ok is) ↔ balanced bytes = true) ∧
    (∀ (bytes : List Nat) (e : ParseErr), parse bytes = .error e →
      balanced bytes = false ∧ errPos bytes = some e.position.start ∧
      e.position.stop = e.position.start) := by
  constructor
  · intro bytes
    constructor
    · rintro ⟨is, h⟩
      have hb := ((parseGo_spec bytes 0 [] []).1 is h).1
      simpa [balanced] using hb
    · intro hbal
      cases hp : parse bytes with
      | ok is => exact ⟨is, rfl⟩
      | error e =>
        have hf := ((parseGo_spec bytes 0 [] []).2 e hp).1
        simp only [List.length_nil] at hf
        unfold balanced at hbal
        rw [hf] at hbal
        exact absurd hbal (by simp)
  · intro bytes e h
    obtain ⟨hbal, herr, hstop⟩ := (parseGo_spec bytes 0 [] []).2 e h
    refine ⟨by simpa [balanced] using hbal, ?_, hstop⟩
    simpa [errPos] using herr

/-- Witness for claim C4: the balanced two-byte program of one loop
parses, and the two-open-bracket program reports offset one. -/
theorem claim_C4_witness :
    (∃ is, parse [91, 93] = .ok is) ∧ errPos [91, 91] = some 1 := by
  constructor
  · exact (claim_C4_amended.1 [91, 93]).mpr rfl
  · have h := claim_C4_amended.2 [91, 91]
      ⟨"This [ has no matching closing ].", ⟨1, 1⟩⟩ rfl
    exact h.2.1
